import Mathlib

/-!
Verification of the touching-shape clustering core of `src/Geometry.py`
(`are_shapes_touching`, `group_touching_shapes`).

The distance oracle (`BRepExtrema_DistShapeShape` in the source) is modelled
as a function `d : α → α → Option ℚ`; `none` models the kernel reporting
that it could not complete the computation (`extrema.IsDone()` false), and
`some q` models a successfully computed minimum distance `q`.

`group_touching_shapes` is embedded at the level of input positions: the
Python code keys its `visited` set by position (`enumerate(shapes)`), so
clusters are lists of positions, converted to shape values at the end, just
as the Python code appends `shapes[i]` at the moment position `i` is
visited.  In addition the embedding keeps a log of every oracle query
(positions of both arguments and the `visited` set at the moment of the
query); the log is a pure observer and does not influence control flow.
-/

namespace IfcGeom

/-- Model of the Python exceptions relevant to `Geometry.py`.
`are_shapes_touching` raises the built-in `RuntimeError` with a message;
`distanceComputationFailed` models the dedicated error kind that the
specification postulates — no code in the repository defines or raises it. -/
inductive PyErr where
  | runtimeError (msg : String)
  | distanceComputationFailed
deriving DecidableEq

/-- The message of the `RuntimeError` raised in `are_shapes_touching`
(Geometry.py line 33). -/
def distanceFailedMsg : String := "Distance computation failed."

variable {α : Type}

/-- Embedding of `are_shapes_touching` (Geometry.py lines 23-35): compute the
minimum distance via the oracle, raise `RuntimeError` if the computation did
not complete, otherwise compare the distance with `0.0` exactly. -/
def are_shapes_touching (d : α → α → Option ℚ) (a b : α) : Except PyErr Bool :=
  match d a b with
  | none => .error (.runtimeError distanceFailedMsg)
  | some q => .ok (decide (q = 0))

/-- One oracle query issued during `group_touching_shapes`: the positions of
the two arguments in the input list, and the `visited` set at the moment the
query was issued. -/
structure Query where
  src : ℕ
  tgt : ℕ
  seen : Finset ℕ
deriving DecidableEq

/-- Embedding of the inner recursive `dfs` of `group_touching_shapes`
(Geometry.py lines 46-52).  The current shape is `shapes.get k` (the Python
`dfs` receives the shape value; every call site passes `shapes[i]` for the
position `i` just visited, so the position is carried instead).  `i` is the
scan position of the `for i, other_shape in enumerate(shapes)` loop; `group`
is the cluster under construction, as positions; `log` is the query log.
The subtype bound `visited ⊆ r.1` records that the visited set only grows;
it is needed for termination. -/
def dfsLoop (d : α → α → Option ℚ) (shapes : List α) (k : Fin shapes.length)
    (i : ℕ) (visited : Finset ℕ) (group : List ℕ) (log : List Query) :
    Except PyErr {r : Finset ℕ × List ℕ × List Query // visited ⊆ r.1} :=
  if hi : i < shapes.length then
    if hv : i ∈ visited then
      dfsLoop d shapes k (i + 1) visited group log
    else
      match are_shapes_touching d (shapes.get k) (shapes.get ⟨i, hi⟩) with
      | .error e => .error e
      | .ok b =>
        if b then
          match dfsLoop d shapes ⟨i, hi⟩ 0 (insert i visited) (group ++ [i])
              (log ++ [⟨k.val, i, visited⟩]) with
          | .error e => .error e
          | .ok r1 =>
            match dfsLoop d shapes k (i + 1) r1.val.1 r1.val.2.1 r1.val.2.2 with
            | .error e => .error e
            | .ok r2 =>
              .ok ⟨r2.val, fun x hx =>
                r2.property (r1.property (Finset.mem_insert_of_mem hx))⟩
        else
          dfsLoop d shapes k (i + 1) visited group (log ++ [⟨k.val, i, visited⟩])
  else
    .ok ⟨(visited, group, log), Finset.Subset.refl visited⟩
termination_by ((Finset.range shapes.length \ visited).card, shapes.length - i)
decreasing_by
  · exact Prod.Lex.right _ (by omega)
  · refine Prod.Lex.left _ _ (Finset.card_lt_card ?_)
    refine ⟨Finset.sdiff_subset_sdiff (Finset.Subset.refl _) (Finset.subset_insert i visited), ?_⟩
    intro hsub
    have hmem : i ∈ Finset.range shapes.length \ visited := by
      simp [Finset.mem_sdiff, Finset.mem_range, hi, hv]
    have hbad := hsub hmem
    simp [Finset.mem_sdiff] at hbad
  · refine Prod.Lex.left _ _ (lt_of_le_of_lt
      (Finset.card_le_card (Finset.sdiff_subset_sdiff (Finset.Subset.refl _) r1.property))
      (Finset.card_lt_card ?_))
    refine ⟨Finset.sdiff_subset_sdiff (Finset.Subset.refl _) (Finset.subset_insert i visited), ?_⟩
    intro hsub
    have hmem : i ∈ Finset.range shapes.length \ visited := by
      simp [Finset.mem_sdiff, Finset.mem_range, hi, hv]
    have hbad := hsub hmem
    simp [Finset.mem_sdiff] at hbad
  · exact Prod.Lex.right _ (by omega)

/-- Embedding of the outer loop of `group_touching_shapes`
(Geometry.py lines 54-61): scan the positions in order, and for each
unvisited position seed a new cluster and expand it with `dfs`.  Returns the
final visited set, the clusters (as lists of positions) and the query log. -/
def groupLoop (d : α → α → Option ℚ) (shapes : List α) (i : ℕ)
    (visited : Finset ℕ) (groups : List (List ℕ)) (log : List Query) :
    Except PyErr (Finset ℕ × List (List ℕ) × List Query) :=
  if hi : i < shapes.length then
    if i ∈ visited then
      groupLoop d shapes (i + 1) visited groups log
    else
      match dfsLoop d shapes ⟨i, hi⟩ 0 (insert i visited) [i] log with
      | .error e => .error e
      | .ok r =>
        groupLoop d shapes (i + 1) r.val.1 (groups ++ [r.val.2.1]) r.val.2.2
  else
    .ok (visited, groups, log)
termination_by shapes.length - i
decreasing_by
  · omega
  · omega

/-- A full run of `group_touching_shapes`, exposing the internal visited set
and the query log in addition to the clusters. -/
def groupRun (d : α → α → Option ℚ) (shapes : List α) :
    Except PyErr (Finset ℕ × List (List ℕ) × List Query) :=
  groupLoop d shapes 0 ∅ [] []

/-- Embedding of `group_touching_shapes` at the level of input positions. -/
def group_touching_shapes_idx (d : α → α → Option ℚ) (shapes : List α) :
    Except PyErr (List (List ℕ)) :=
  (groupRun d shapes).map fun r => r.2.1

/-- Embedding of `group_touching_shapes` (Geometry.py lines 37-61): the
clusters of shape values, obtained from the position-level clusters (every
recorded position is in range, so `filterMap` drops nothing). -/
def group_touching_shapes (d : α → α → Option ℚ) (shapes : List α) :
    Except PyErr (List (List α)) :=
  (group_touching_shapes_idx d shapes).map fun gs =>
    gs.map fun g => g.filterMap fun x => shapes[x]?

/-- The oracle distance read at input positions `x` and `y`. -/
def dIdx (d : α → α → Option ℚ) (shapes : List α) (x y : ℕ) : Option ℚ :=
  match shapes[x]?, shapes[y]? with
  | some a, some b => d a b
  | _, _ => none

/-- Position `y` is touching-adjacent to position `x`: the oracle reports
distance exactly `0`. -/
def stepIdx (d : α → α → Option ℚ) (shapes : List α) (x y : ℕ) : Prop :=
  dIdx d shapes x y = some 0

/-- A touching chain: a nonempty list of positions starting at `a`, ending at
`b`, all members of `C`, in which every consecutive pair is touching. -/
def chainIn (d : α → α → Option ℚ) (shapes : List α) (C : List ℕ) (a b : ℕ) : Prop :=
  ∃ l : List ℕ, l.head? = some a ∧ l.getLast? = some b ∧ (∀ x ∈ l, x ∈ C) ∧
    l.Chain' (stepIdx d shapes)

/-- Postcondition of a successful `dfsLoop` call. -/
def DfsPost (d : α → α → Option ℚ) (shapes : List α) (k i : ℕ)
    (visited : Finset ℕ) (group : List ℕ) (log : List Query)
    (v2 : Finset ℕ) (g2 : List ℕ) (log2 : List Query) : Prop :=
  ∃ δ qs,
    g2 = group ++ δ ∧
    log2 = log ++ qs ∧
    v2 = visited ∪ δ.toFinset ∧
    δ.Nodup ∧
    (∀ x ∈ δ, x ∉ visited ∧ x < shapes.length) ∧
    (∀ q ∈ qs, q.src ∈ v2 ∧ q.src ∈ q.seen ∧ q.tgt ∉ q.seen ∧
      q.tgt < shapes.length ∧ ((q.src = k ∧ i ≤ q.tgt) ∨ q.src ∉ visited)) ∧
    (qs.map fun q => (q.src, q.tgt)).Nodup ∧
    (∀ j, i ≤ j → j < shapes.length →
      j ∈ v2 ∨ ∃ c : ℚ, c ≠ 0 ∧ dIdx d shapes k j = some c) ∧
    (∀ x ∈ δ, ∀ j, j < shapes.length →
      j ∈ v2 ∨ ∃ c : ℚ, c ≠ 0 ∧ dIdx d shapes x j = some c) ∧
    (∀ x ∈ δ, ∃ l, l ≠ [] ∧ (∀ y ∈ l, y ∈ δ) ∧
      List.Chain (stepIdx d shapes) k l ∧ l.getLast? = some x)

/-- Postcondition of a failing run: the error is the `RuntimeError` of
`are_shapes_touching`, and some in-range pair has an undefined distance. -/
def ErrPost (d : α → α → Option ℚ) (shapes : List α) (e : PyErr) : Prop :=
  e = .runtimeError distanceFailedMsg ∧
  ∃ x y, x < shapes.length ∧ y < shapes.length ∧ dIdx d shapes x y = none

/-- Postcondition of a successful `groupLoop` call. -/
def GroupPost (d : α → α → Option ℚ) (shapes : List α) (i : ℕ)
    (visited : Finset ℕ) (groups : List (List ℕ)) (log : List Query)
    (v2 : Finset ℕ) (gs2 : List (List ℕ)) (log2 : List Query) : Prop :=
  ∃ ngs qs,
    gs2 = groups ++ ngs ∧
    log2 = log ++ qs ∧
    (∀ j, j < shapes.length → j ∈ v2) ∧
    visited ⊆ v2 ∧
    (∀ x, x ∈ v2 ↔ x ∈ visited ∨ ∃ g ∈ ngs, x ∈ g) ∧
    (∀ g ∈ ngs, ∃ s δ, g = s :: δ ∧ s ∉ visited ∧ i ≤ s ∧ s < shapes.length ∧
      g.Nodup ∧ (∀ x ∈ g, x ∉ visited ∧ x < shapes.length ∧ s ≤ x) ∧
      (∀ x ∈ δ, ∃ l, l ≠ [] ∧ (∀ y ∈ l, y ∈ δ) ∧
        List.Chain (stepIdx d shapes) s l ∧ l.getLast? = some x)) ∧
    List.Pairwise (fun g1 g2 => g1.headI < g2.headI) ngs ∧
    List.Pairwise (fun g1 g2 => ∀ x ∈ g1, x ∉ g2) ngs ∧
    List.Pairwise (fun g1 g2 => ∀ x ∈ g1, ∀ y ∈ g2,
      ∃ c : ℚ, c ≠ 0 ∧ dIdx d shapes x y = some c) ngs ∧
    (∀ q ∈ qs, q.src ∈ v2 ∧ q.src ∉ visited ∧ q.src ∈ q.seen ∧ q.tgt ∉ q.seen ∧
      q.tgt < shapes.length) ∧
    (qs.map fun q => (q.src, q.tgt)).Nodup

/-- One touching move between two members of `C`. -/
def touchRel (d : α → α → Option ℚ) (shapes : List α) (C : List ℕ) (x y : ℕ) : Prop :=
  stepIdx d shapes x y ∧ x ∈ C ∧ y ∈ C

/-- Touching-connectivity inside `C`: the reflexive-transitive closure of
single touching moves between members of `C`. -/
def rtcIn (d : α → α → Option ℚ) (shapes : List α) (C : List ℕ) : ℕ → ℕ → Prop :=
  Relation.ReflTransGen (touchRel d shapes C)

/-- Scenario oracle: shapes 0 and 1 touch, 1 and 2 touch, 0 and 2 are 5
apart (Scenario 3 of the specification). -/
def dChainScen : ℕ → ℕ → Option ℚ := fun a b =>
  if (a = 0 ∧ b = 1) ∨ (a = 1 ∧ b = 0) ∨ (a = 1 ∧ b = 2) ∨ (a = 2 ∧ b = 1) then some 0
  else some 5

/-- Scenario oracle: every pair is 5 apart (Scenario 4 of the specification). -/
def dApartScen : ℕ → ℕ → Option ℚ := fun _ _ => some 5

/-- Scenario oracle: the geometric kernel always fails (Scenario 5). -/
def dFailScen : ℕ → ℕ → Option ℚ := fun _ _ => none

theorem are_shapes_touching_error {d : α → α → Option ℚ} {a b : α} {e : PyErr}
    (h : are_shapes_touching d a b = .error e) :
    e = .runtimeError distanceFailedMsg ∧ d a b = none := by
  unfold are_shapes_touching at h
  cases hd : d a b <;> rw [hd] at h <;> simp_all

theorem are_shapes_touching_ok {d : α → α → Option ℚ} {a b : α} {v : Bool}
    (h : are_shapes_touching d a b = .ok v) :
    ∃ q, d a b = some q ∧ v = decide (q = 0) := by
  unfold are_shapes_touching at h
  cases hd : d a b <;> rw [hd] at h <;> simp_all

theorem dIdx_eq {d : α → α → Option ℚ} {shapes : List α} {x y : ℕ}
    (hx : x < shapes.length) (hy : y < shapes.length) :
    dIdx d shapes x y = d (shapes.get ⟨x, hx⟩) (shapes.get ⟨y, hy⟩) := by
  unfold dIdx
  rw [List.getElem?_eq_getElem hx, List.getElem?_eq_getElem hy]
  rfl

theorem dfsLoop_spec (d : α → α → Option ℚ) (shapes : List α)
    (k : Fin shapes.length) (i : ℕ) (visited : Finset ℕ) (group : List ℕ)
    (log : List Query) :
    k.val ∈ visited →
    (∀ e, dfsLoop d shapes k i visited group log = .error e → ErrPost d shapes e) ∧
    (∀ r, dfsLoop d shapes k i visited group log = .ok r →
      DfsPost d shapes k.val i visited group log r.val.1 r.val.2.1 r.val.2.2) := by
  induction k, i, visited, group, log using dfsLoop.induct d shapes with
  | case1 k i visited group log hi hv ih =>
    intro hk
    obtain ⟨ihe, iho⟩ := ih hk
    constructor
    · intro e he
      rw [dfsLoop] at he
      simp only [dif_pos hi, dif_pos hv] at he
      exact ihe e he
    · intro r hr
      rw [dfsLoop] at hr
      simp only [dif_pos hi, dif_pos hv] at hr
      obtain ⟨q1, q2, h1, h2, h3, h4, h5, h6, h7, h8, h9, h10⟩ := iho r hr
      refine ⟨q1, q2, h1, h2, h3, h4, h5, ?_, h7, ?_, h9, h10⟩
      · intro q hq
        obtain ⟨a1, a2, a3, a4, a5⟩ := h6 q hq
        refine ⟨a1, a2, a3, a4, ?_⟩
        rcases a5 with ⟨a6, a7⟩ | a6
        · exact Or.inl ⟨a6, by omega⟩
        · exact Or.inr a6
      · intro j hij hjn
        rcases Nat.eq_or_lt_of_le hij with rfl | hlt
        · exact Or.inl (h3 ▸ Finset.mem_union_left _ hv)
        · exact h8 j hlt hjn
  | case2 k i visited group log hi hv e herr =>
    intro hk
    obtain ⟨hmsg, hnone⟩ := are_shapes_touching_error herr
    have herrpost : ErrPost d shapes e := by
      refine ⟨hmsg, k.val, i, k.isLt, hi, ?_⟩
      rw [dIdx_eq k.isLt hi]
      simpa using hnone
    constructor
    · intro e2 he
      rw [dfsLoop] at he
      simp only [dif_pos hi, dif_neg hv, herr, Except.error.injEq] at he
      exact he ▸ herrpost
    · intro r hr
      rw [dfsLoop] at hr
      simp only [dif_pos hi, dif_neg hv, herr] at hr
      exact absurd hr (by simp)
  | case3 k i visited group log hi hv e herr htouch ih1 =>
    intro hk
    have hk1 : (⟨i, hi⟩ : Fin shapes.length).val ∈ insert i visited :=
      Finset.mem_insert_self i visited
    obtain ⟨ihe, _⟩ := ih1 hk1
    have herrpost : ErrPost d shapes e := ihe e herr
    constructor
    · intro e2 he
      rw [dfsLoop] at he
      simp only [dif_pos hi, dif_neg hv, htouch, if_true, herr, Except.error.injEq] at he
      exact he ▸ herrpost
    · intro r hr
      rw [dfsLoop] at hr
      simp only [dif_pos hi, dif_neg hv, htouch, if_true, herr] at hr
      exact absurd hr (by simp)
  | case4 k i visited group log hi hv r1 hr1 e herr htouch ih1 ih2 =>
    intro hk
    have hk2 : k.val ∈ (r1.val.1 : Finset ℕ) :=
      r1.property (Finset.mem_insert_of_mem hk)
    obtain ⟨ihe, _⟩ := ih2 hk2
    have herrpost : ErrPost d shapes e := ihe e herr
    constructor
    · intro e2 he
      rw [dfsLoop] at he
      simp only [dif_pos hi, dif_neg hv, htouch, if_true, hr1, herr, Except.error.injEq] at he
      exact he ▸ herrpost
    · intro r hr
      rw [dfsLoop] at hr
      simp only [dif_pos hi, dif_neg hv, htouch, if_true, hr1, herr] at hr
      exact absurd hr (by simp)
  | case5 k i visited group log hi hv r1 hr1 r2 hr2 htouch ih1 ih2 =>
    intro hk
    have hk1 : (⟨i, hi⟩ : Fin shapes.length).val ∈ insert i visited :=
      Finset.mem_insert_self i visited
    have hk2 : k.val ∈ (r1.val.1 : Finset ℕ) := r1.property (Finset.mem_insert_of_mem hk)
    obtain ⟨_, iho1⟩ := ih1 hk1
    obtain ⟨_, iho2⟩ := ih2 hk2
    have post1 := iho1 r1 hr1
    have post2 := iho2 r2 hr2
    obtain ⟨c, hc, hcd⟩ := are_shapes_touching_ok htouch
    have hc0 : c = 0 := by
      by_contra h0
      simp [h0] at hcd
    subst hc0
    have hstep : stepIdx d shapes k.val i := by
      unfold stepIdx
      rw [dIdx_eq k.isLt hi]
      simpa using hc
    have hsub1 : insert i visited ⊆ (r1.val.1 : Finset ℕ) := r1.property
    have hsub2 : (r1.val.1 : Finset ℕ) ⊆ r2.val.1 := r2.property
    have hvsub : visited ⊆ (r2.val.1 : Finset ℕ) := fun x hx =>
      hsub2 (hsub1 (Finset.mem_insert_of_mem hx))
    have hiin1 : i ∈ (r1.val.1 : Finset ℕ) := hsub1 (Finset.mem_insert_self _ _)
    have hiin : i ∈ (r2.val.1 : Finset ℕ) := hsub2 hiin1
    constructor
    · intro e he
      rw [dfsLoop] at he
      simp only [dif_pos hi, dif_neg hv, htouch, if_true, hr1, hr2] at he
      exact absurd he (by simp)
    · intro r hr
      rw [dfsLoop] at hr
      simp only [dif_pos hi, dif_neg hv, htouch, if_true, hr1, hr2, Except.ok.injEq] at hr
      subst hr
      obtain ⟨d1, q1, p1g, p1log, p1v, p1nd, p1fresh, p1q, p1qnd, p1scan, p1ds, p1ch⟩ := post1
      obtain ⟨d2, q2, p2g, p2log, p2v, p2nd, p2fresh, p2q, p2qnd, p2scan, p2ds, p2ch⟩ := post2
      have hd1sub : ∀ x ∈ d1, x ∈ (r1.val.1 : Finset ℕ) := by
        intro x hx
        rw [p1v]
        exact Finset.mem_union_right _ (List.mem_toFinset.mpr hx)
      have hd2fresh : ∀ x ∈ d2, x ∉ (r1.val.1 : Finset ℕ) := fun x hx => (p2fresh x hx).1
      refine ⟨i :: (d1 ++ d2), ⟨k.val, i, visited⟩ :: (q1 ++ q2), ?_, ?_, ?_, ?_, ?_, ?_, ?_, ?_, ?_, ?_⟩
      · rw [p2g, p1g]
        simp
      · rw [p2log, p1log]
        simp
      · rw [p2v, p1v]
        ext x
        simp only [Finset.mem_union, Finset.mem_insert, List.mem_toFinset, List.toFinset_cons,
          List.toFinset_append, List.mem_cons, List.mem_append]
        tauto
      · refine List.nodup_cons.mpr ⟨?_, ?_⟩
        · intro hmem
          rcases List.mem_append.mp hmem with h1 | h2
          · exact (p1fresh i h1).1 (Finset.mem_insert_self _ _)
          · exact hd2fresh i h2 hiin1
        · refine List.nodup_append.mpr ⟨p1nd, p2nd, ?_⟩
          intro x hx1 hx2
          exact hd2fresh x hx2 (hd1sub x hx1)
      · intro x hx
        rcases List.mem_cons.mp hx with rfl | hx2
        · exact ⟨hv, hi⟩
        · rcases List.mem_append.mp hx2 with h1 | h2
          · exact ⟨fun hin => (p1fresh x h1).1 (Finset.mem_insert_of_mem hin), (p1fresh x h1).2⟩
          · exact ⟨fun hin => hd2fresh x h2 (hsub1 (Finset.mem_insert_of_mem hin)),
              (p2fresh x h2).2⟩
      · intro q hq
        rcases List.mem_cons.mp hq with rfl | hq2
        · exact ⟨hvsub hk, hk, hv, hi, Or.inl ⟨rfl, le_refl i⟩⟩
        · rcases List.mem_append.mp hq2 with h1 | h2
          · obtain ⟨a1, a2, a3, a4, a5⟩ := p1q q h1
            refine ⟨hsub2 a1, a2, a3, a4, Or.inr ?_⟩
            rcases a5 with ⟨a6, _⟩ | a6
            · exact a6 ▸ hv
            · exact fun hin => a6 (Finset.mem_insert_of_mem hin)
          · obtain ⟨a1, a2, a3, a4, a5⟩ := p2q q h2
            refine ⟨a1, a2, a3, a4, ?_⟩
            rcases a5 with ⟨a6, a7⟩ | a6
            · exact Or.inl ⟨a6, by omega⟩
            · exact Or.inr fun hin => a6 (hsub1 (Finset.mem_insert_of_mem hin))
      · simp only [List.map_cons, List.map_append]
        refine List.nodup_cons.mpr ⟨?_, ?_⟩
        · intro hmem
          rcases List.mem_append.mp hmem with h1 | h2
          · obtain ⟨q, hqmem, hpair⟩ := List.mem_map.mp h1
            have hsrc : q.src = k.val := congrArg Prod.fst hpair
            obtain ⟨_, _, _, _, a5⟩ := p1q q hqmem
            rcases a5 with ⟨a6, _⟩ | a6
            · have ha : q.src = i := by simpa using a6
              have hik : i = (k : ℕ) := by rw [← ha, hsrc]
              exact hv (hik ▸ hk)
            · exact a6 (hsrc ▸ Finset.mem_insert_of_mem hk)
          · obtain ⟨q, hqmem, hpair⟩ := List.mem_map.mp h2
            have hsrc : q.src = k.val := congrArg Prod.fst hpair
            have htgt : q.tgt = i := congrArg Prod.snd hpair
            obtain ⟨_, _, _, _, a5⟩ := p2q q hqmem
            rcases a5 with ⟨_, a7⟩ | a6
            · omega
            · exact a6 (hsrc ▸ hk2)
        · refine List.nodup_append.mpr ⟨p1qnd, p2qnd, ?_⟩
          intro p hp1 hp2
          obtain ⟨qa, hqa, hpa⟩ := List.mem_map.mp hp1
          obtain ⟨qb, hqb, hpb⟩ := List.mem_map.mp hp2
          have hsrcs : qa.src = qb.src := by
            have := hpa.trans hpb.symm
            exact congrArg Prod.fst this
          obtain ⟨b1, _, _, _, b5⟩ := p1q qa hqa
          obtain ⟨_, _, _, _, c5⟩ := p2q qb hqb
          rcases c5 with ⟨c6, _⟩ | c6
          · rcases b5 with ⟨b6, _⟩ | b6
            · have hb : qa.src = i := by simpa using b6
              have hik : i = (k : ℕ) := by rw [← hb, hsrcs, c6]
              exact hv (hik ▸ hk)
            · rw [hsrcs, c6] at b6
              exact b6 (Finset.mem_insert_of_mem hk)
          · rw [hsrcs] at b1
            exact c6 b1
      · intro j hij hjn
        rcases Nat.eq_or_lt_of_le hij with rfl | hlt
        · exact Or.inl hiin
        · exact p2scan j hlt hjn
      · intro x hx
        rcases List.mem_cons.mp hx with rfl | hx2
        · intro j hjn
          rcases p1scan j (Nat.zero_le j) hjn with h | h
          · exact Or.inl (hsub2 h)
          · exact Or.inr h
        · rcases List.mem_append.mp hx2 with h1 | h2
          · intro j hjn
            rcases p1ds x h1 j hjn with h | h
            · exact Or.inl (hsub2 h)
            · exact Or.inr h
          · exact p2ds x h2
      · intro x hx
        rcases List.mem_cons.mp hx with rfl | hx2
        · exact ⟨[x], by simp, by simp, List.Chain.cons hstep List.Chain.nil, by simp⟩
        · rcases List.mem_append.mp hx2 with h1 | h2
          · obtain ⟨l, hne, hmem, hchain, hlast⟩ := p1ch x h1
            refine ⟨i :: l, by simp, ?_, List.Chain.cons hstep hchain, ?_⟩
            · intro y hy
              rcases List.mem_cons.mp hy with rfl | hy2
              · exact List.mem_cons_self _ _
              · exact List.mem_cons_of_mem _ (List.mem_append_left _ (hmem y hy2))
            · obtain ⟨a, t, rfl⟩ := List.exists_cons_of_ne_nil hne
              rw [List.getLast?_cons_cons]
              exact hlast
          · obtain ⟨l, hne, hmem, hchain, hlast⟩ := p2ch x h2
            refine ⟨l, hne, ?_, hchain, hlast⟩
            intro y hy
            exact List.mem_cons_of_mem _ (List.mem_append_right _ (hmem y hy))
  | case6 k i visited group log hi hv b hq hb ih =>
    intro hk
    have hbf : b = false := by
      cases b
      · rfl
      · exact absurd rfl hb
    subst hbf
    obtain ⟨c, hc, hcd⟩ := are_shapes_touching_ok hq
    have hcne : c ≠ 0 := by
      intro h0
      subst h0
      simp at hcd
    obtain ⟨ihe, iho⟩ := ih hk
    constructor
    · intro e he
      rw [dfsLoop] at he
      simp only [dif_pos hi, dif_neg hv, hq, Bool.false_eq_true, if_false] at he
      exact ihe e he
    · intro r hr
      rw [dfsLoop] at hr
      simp only [dif_pos hi, dif_neg hv, hq, Bool.false_eq_true, if_false] at hr
      obtain ⟨δ, qs, h1, h2, h3, h4, h5, h6, h7, h8, h9, h10⟩ := iho r hr
      refine ⟨δ, ⟨k.val, i, visited⟩ :: qs, h1, by rw [h2]; simp, h3, h4, h5, ?_, ?_, ?_, h9, h10⟩
      · intro q hq2
        rcases List.mem_cons.mp hq2 with rfl | hq3
        · exact ⟨h3 ▸ Finset.mem_union_left _ hk, hk, hv, hi, Or.inl ⟨rfl, le_refl i⟩⟩
        · obtain ⟨a1, a2, a3, a4, a5⟩ := h6 q hq3
          refine ⟨a1, a2, a3, a4, ?_⟩
          rcases a5 with ⟨a6, a7⟩ | a6
          · exact Or.inl ⟨a6, by omega⟩
          · exact Or.inr a6
      · simp only [List.map_cons]
        refine List.nodup_cons.mpr ⟨?_, h7⟩
        intro hmem
        obtain ⟨q, hqmem, hpair⟩ := List.mem_map.mp hmem
        have hsrc : q.src = k.val := congrArg Prod.fst hpair
        have htgt : q.tgt = i := congrArg Prod.snd hpair
        obtain ⟨a1, a2, a3, a4, a5⟩ := h6 q hqmem
        rcases a5 with ⟨a6, a7⟩ | a6
        · omega
        · exact a6 (hsrc ▸ hk)
      · intro j hij hjn
        rcases Nat.eq_or_lt_of_le hij with rfl | hlt
        · right
          refine ⟨c, hcne, ?_⟩
          rw [dIdx_eq k.isLt hi]
          simpa using hc
        · exact h8 j hlt hjn
  | case7 k i visited group log hi =>
    intro hk
    constructor
    · intro e he
      rw [dfsLoop] at he
      simp only [dif_neg hi] at he
      exact absurd he (by simp)
    · intro r hr
      rw [dfsLoop] at hr
      simp only [dif_neg hi, Except.ok.injEq] at hr
      obtain ⟨rv, rp⟩ := r
      simp only [Subtype.mk.injEq] at hr
      subst hr
      refine ⟨[], [], by simp, by simp, by simp, List.nodup_nil, by simp, by simp, by simp,
        ?_, by simp, by simp⟩
      intro j hij hjn
      omega

theorem groupLoop_spec (d : α → α → Option ℚ) (shapes : List α) (i : ℕ)
    (visited : Finset ℕ) (groups : List (List ℕ)) (log : List Query) :
    (∀ j, j < i → j ∈ visited) → visited ⊆ Finset.range shapes.length →
    (∀ e, groupLoop d shapes i visited groups log = .error e → ErrPost d shapes e) ∧
    (∀ v2 gs2 log2, groupLoop d shapes i visited groups log = .ok (v2, gs2, log2) →
      GroupPost d shapes i visited groups log v2 gs2 log2) := by
  induction i, visited, groups, log using groupLoop.induct d shapes with
  | case1 i visited groups log hi hv ih =>
    intro hpre hsub
    have hpre2 : ∀ j, j < i + 1 → j ∈ visited := by
      intro j hj
      rcases Nat.lt_succ_iff_lt_or_eq.mp hj with h | rfl
      · exact hpre j h
      · exact hv
    obtain ⟨ihe, iho⟩ := ih hpre2 hsub
    constructor
    · intro e he
      rw [groupLoop] at he
      simp only [dif_pos hi, if_pos hv] at he
      exact ihe e he
    · intro v2 gs2 log2 hr
      rw [groupLoop] at hr
      simp only [dif_pos hi, if_pos hv] at hr
      obtain ⟨ngs, qs, h1, h2, h3, h4, h5, h6, h7, h8, h9, h10, h11⟩ := iho v2 gs2 log2 hr
      refine ⟨ngs, qs, h1, h2, h3, h4, h5, ?_, h7, h8, h9, h10, h11⟩
      intro g hg
      obtain ⟨s, δ, hs1, hs2, hs3, hs4, hs5, hs6, hs7⟩ := h6 g hg
      exact ⟨s, δ, hs1, hs2, by omega, hs4, hs5, hs6, hs7⟩
  | case2 i visited groups log hi hv e herr =>
    intro hpre hsub
    have hk : (⟨i, hi⟩ : Fin shapes.length).val ∈ insert i visited :=
      Finset.mem_insert_self i visited
    have herrpost : ErrPost d shapes e :=
      (dfsLoop_spec d shapes ⟨i, hi⟩ 0 (insert i visited) [i] log hk).1 e herr
    constructor
    · intro e2 he
      rw [groupLoop] at he
      simp only [dif_pos hi, if_neg hv, herr, Except.error.injEq] at he
      exact he ▸ herrpost
    · intro v2 gs2 log2 hr
      rw [groupLoop] at hr
      simp only [dif_pos hi, if_neg hv, herr] at hr
      exact absurd hr (by simp)
  | case3 i visited groups log hi hv r hr ih =>
    intro hpre hsub
    have hk : (⟨i, hi⟩ : Fin shapes.length).val ∈ insert i visited :=
      Finset.mem_insert_self i visited
    obtain ⟨δ, qs, pg, plog, pv, pnd, pfresh, pq, pqnd, pscan, pds, pch⟩ :=
      (dfsLoop_spec d shapes ⟨i, hi⟩ 0 (insert i visited) [i] log hk).2 r hr
    have hins : insert i visited ⊆ (r.val.1 : Finset ℕ) := r.property
    have hvsub : visited ⊆ (r.val.1 : Finset ℕ) := fun x hx =>
      hins (Finset.mem_insert_of_mem hx)
    have hiin : i ∈ (r.val.1 : Finset ℕ) := hins (Finset.mem_insert_self _ _)
    have hdsub : ∀ x ∈ δ, x ∈ (r.val.1 : Finset ℕ) := by
      intro x hx
      rw [pv]
      exact Finset.mem_union_right _ (List.mem_toFinset.mpr hx)
    have hgsub : ∀ x ∈ (r.val.2.1 : List ℕ), x ∈ (r.val.1 : Finset ℕ) := by
      intro x hx
      rw [pg] at hx
      rcases List.mem_cons.mp hx with rfl | hx2
      · exact hiin
      · exact hdsub x hx2
    have hisub : (r.val.1 : Finset ℕ) ⊆ Finset.range shapes.length := by
      rw [pv]
      intro x hx
      rcases Finset.mem_union.mp hx with h | h
      · rcases Finset.mem_insert.mp h with rfl | h2
        · exact Finset.mem_range.mpr hi
        · exact hsub h2
      · exact Finset.mem_range.mpr (pfresh x (List.mem_toFinset.mp h)).2
    have hpre2 : ∀ j, j < i + 1 → j ∈ (r.val.1 : Finset ℕ) := by
      intro j hj
      rcases Nat.lt_succ_iff_lt_or_eq.mp hj with h | rfl
      · exact hvsub (hpre j h)
      · exact hiin
    obtain ⟨ihe, iho⟩ := ih hpre2 hisub
    constructor
    · intro e2 he
      rw [groupLoop] at he
      simp only [dif_pos hi, if_neg hv, hr] at he
      exact ihe e2 he
    · intro v2 gs2 log2 hro
      rw [groupLoop] at hro
      simp only [dif_pos hi, if_neg hv, hr] at hro
      obtain ⟨ngs, qs2, h1, h2, h3, h4, h5, h6, h7, h8, h9, h10, h11⟩ := iho v2 gs2 log2 hro
      have hv2sub : (r.val.1 : Finset ℕ) ⊆ v2 := h4
      refine ⟨r.val.2.1 :: ngs, qs ++ qs2, ?_, ?_, h3, ?_, ?_, ?_, ?_, ?_, ?_, ?_, ?_⟩
      · rw [h1]
        simp
      · rw [h2, plog]
        simp
      · exact fun x hx => hv2sub (hvsub hx)
      · intro x
        rw [h5]
        have hrv : x ∈ (r.val.1 : Finset ℕ) ↔ x = i ∨ x ∈ visited ∨ x ∈ δ := by
          rw [pv]
          simp [Finset.mem_union, Finset.mem_insert, List.mem_toFinset]
        have hrg : ∀ y : ℕ, y ∈ (r.val.2.1 : List ℕ) ↔ y = i ∨ y ∈ δ := by
          intro y
          rw [pg]
          simp
        constructor
        · rintro (h | ⟨g, hg, hxg⟩)
          · rcases hrv.mp h with rfl | h2 | h3
            · exact Or.inr ⟨r.val.2.1, List.mem_cons_self _ _, (hrg x).mpr (Or.inl rfl)⟩
            · exact Or.inl h2
            · exact Or.inr ⟨r.val.2.1, List.mem_cons_self _ _, (hrg x).mpr (Or.inr h3)⟩
          · exact Or.inr ⟨g, List.mem_cons_of_mem _ hg, hxg⟩
        · rintro (h | ⟨g, hg, hxg⟩)
          · exact Or.inl (hrv.mpr (Or.inr (Or.inl h)))
          · rcases List.mem_cons.mp hg with rfl | hg2
            · rcases (hrg x).mp hxg with rfl | h3
              · exact Or.inl (hrv.mpr (Or.inl rfl))
              · exact Or.inl (hrv.mpr (Or.inr (Or.inr h3)))
            · exact Or.inr ⟨g, hg2, hxg⟩
      · intro g hg
        rcases List.mem_cons.mp hg with rfl | hg2
        · refine ⟨i, δ, by simpa using pg, hv, le_refl i, hi, ?_, ?_, ?_⟩
          · rw [pg]
            refine List.nodup_cons.mpr ⟨?_, pnd⟩
            intro hmem
            exact (pfresh i hmem).1 (Finset.mem_insert_self _ _)
          · intro x hx
            rw [pg] at hx
            rcases List.mem_cons.mp hx with rfl | hx2
            · exact ⟨hv, hi, le_refl x⟩
            · have hfx := pfresh x hx2
              have hxnv : x ∉ visited := fun hin => hfx.1 (Finset.mem_insert_of_mem hin)
              refine ⟨hxnv, hfx.2, ?_⟩
              by_contra hlt
              exact hxnv (hpre x (by omega))
          · exact pch
        · obtain ⟨s, δ2, hs1, hs2, hs3, hs4, hs5, hs6, hs7⟩ := h6 g hg2
          refine ⟨s, δ2, hs1, fun hin => hs2 (hvsub hin), by omega, hs4, hs5, ?_, hs7⟩
          intro x hx
          obtain ⟨m1, m2, m3⟩ := hs6 x hx
          exact ⟨fun hin => m1 (hvsub hin), m2, m3⟩
      · refine List.pairwise_cons.mpr ⟨?_, h7⟩
        intro g hg
        obtain ⟨s, δ2, hs1, hs2, hs3, _, _, _, _⟩ := h6 g hg
        have hh1 : (r.val.2.1 : List ℕ).headI = i := by
          rw [pg]
          rfl
        have hh2 : g.headI = s := by
          rw [hs1]
          rfl
        rw [hh1, hh2]
        omega
      · refine List.pairwise_cons.mpr ⟨?_, h8⟩
        intro g hg x hx hxg
        obtain ⟨_, _, _, _, _, _, _, hs6, _⟩ := h6 g hg
        exact (hs6 x hxg).1 (hgsub x hx)
      · refine List.pairwise_cons.mpr ⟨?_, h9⟩
        intro g hg x hx y hy
        obtain ⟨_, _, _, _, _, _, _, hs6, _⟩ := h6 g hg
        have hy2 := hs6 y hy
        rw [pg] at hx
        rcases List.mem_cons.mp hx with rfl | hx2
        · rcases pscan y (Nat.zero_le y) hy2.2.1 with h | h
          · exact absurd h hy2.1
          · exact h
        · rcases pds x hx2 y hy2.2.1 with h | h
          · exact absurd h hy2.1
          · exact h
      · intro q hq
        rcases List.mem_append.mp hq with hq1 | hq2
        · obtain ⟨a1, a2, a3, a4, a5⟩ := pq q hq1
          refine ⟨hv2sub a1, ?_, a2, a3, a4⟩
          rcases a5 with ⟨a6, _⟩ | a6
          · have : q.src = i := by simpa using a6
            exact this ▸ hv
          · exact fun hin => a6 (Finset.mem_insert_of_mem hin)
        · obtain ⟨a1, a2, a3, a4, a5⟩ := h10 q hq2
          exact ⟨a1, fun hin => a2 (hvsub hin), a3, a4, a5⟩
      · simp only [List.map_append]
        refine List.nodup_append.mpr ⟨pqnd, h11, ?_⟩
        intro p hp1 hp2
        obtain ⟨qa, hqa, hpa⟩ := List.mem_map.mp hp1
        obtain ⟨qb, hqb, hpb⟩ := List.mem_map.mp hp2
        have hsrcs : qa.src = qb.src := congrArg Prod.fst (hpa.trans hpb.symm)
        have b1 := (pq qa hqa).1
        have c2 := (h10 qb hqb).2.1
        rw [hsrcs] at b1
        exact c2 b1
  | case4 i visited groups log hi =>
    intro hpre hsub
    constructor
    · intro e he
      rw [groupLoop] at he
      simp only [dif_neg hi] at he
      exact absurd he (by simp)
    · intro v2 gs2 log2 hr
      rw [groupLoop] at hr
      simp only [dif_neg hi, Except.ok.injEq, Prod.mk.injEq] at hr
      obtain ⟨hv2, hgs2, hlog2⟩ := hr
      subst hv2
      subst hgs2
      subst hlog2
      refine ⟨[], [], by simp, by simp, ?_, ?_, by simp, by simp, by simp, by simp, by simp, by simp⟩
      · intro j hj
        exact hpre j (by omega)
      · intro x
        simp

theorem dIdx_symm {d : α → α → Option ℚ} (shapes : List α)
    (hsym : ∀ a b, d a b = d b a) (x y : ℕ) :
    dIdx d shapes x y = dIdx d shapes y x := by
  unfold dIdx
  cases hx : shapes[x]? <;> cases hy : shapes[y]? <;> simp [hsym]

theorem dIdx_lt {d : α → α → Option ℚ} {shapes : List α} {x y : ℕ} {c : ℚ}
    (h : dIdx d shapes x y = some c) : x < shapes.length ∧ y < shapes.length := by
  unfold dIdx at h
  cases hx : shapes[x]? <;> cases hy : shapes[y]? <;> rw [hx, hy] at h
  · simp at h
  · simp at h
  · simp at h
  · exact ⟨(List.getElem?_eq_some.mp hx).1, (List.getElem?_eq_some.mp hy).1⟩

theorem stepIdx_lt {d : α → α → Option ℚ} {shapes : List α} {x y : ℕ}
    (h : stepIdx d shapes x y) : x < shapes.length ∧ y < shapes.length :=
  dIdx_lt h

theorem rtcIn_symm {d : α → α → Option ℚ} {shapes : List α} {C : List ℕ}
    (hsym : ∀ a b, d a b = d b a) {x y : ℕ}
    (h : rtcIn d shapes C x y) : rtcIn d shapes C y x := by
  refine Relation.ReflTransGen.symmetric ?_ h
  intro u w huw
  refine ⟨?_, huw.2.2, huw.2.1⟩
  unfold stepIdx at *
  rw [dIdx_symm shapes hsym]
  exact huw.1

theorem chainIn_of_rtcIn {d : α → α → Option ℚ} {shapes : List α} {C : List ℕ}
    {a b : ℕ} (ha : a ∈ C) (h : rtcIn d shapes C a b) : chainIn d shapes C a b := by
  induction h with
  | refl => exact ⟨[a], rfl, rfl, by simpa using ha, by simp⟩
  | tail h1 h2 ih =>
    obtain ⟨l, hh, hl, hm, hc⟩ := ih
    have hlne : l ≠ [] := by
      intro h0
      rw [h0] at hh
      simp at hh
    refine ⟨l ++ [_], ?_, List.getLast?_concat l, ?_, ?_⟩
    · rw [List.head?_append]
      rw [hh]
      rfl
    · intro x hx
      rcases List.mem_append.mp hx with h3 | h3
      · exact hm x h3
      · rw [List.mem_singleton.mp h3]
        exact h2.2.2
    · refine List.Chain'.append hc (List.chain'_singleton _) ?_
      intro x hx y hy
      simp only [List.head?_cons, Option.mem_def, Option.some.injEq] at hy
      rw [hl] at hx
      simp only [Option.mem_def, Option.some.injEq] at hx
      rw [← hx, ← hy]
      exact h2.1

theorem rtcIn_of_chain {d : α → α → Option ℚ} {shapes : List α} {C : List ℕ}
    {s x : ℕ} {l : List ℕ} (hs : s ∈ C)
    (hchain : List.Chain (stepIdx d shapes) s l) (hm : ∀ y ∈ l, y ∈ C)
    (hlast : l.getLast? = some x) : rtcIn d shapes C s x := by
  induction l generalizing s with
  | nil => simp at hlast
  | cons y t ih =>
    obtain ⟨hsy, hyt⟩ := List.chain_cons.mp hchain
    have hy : y ∈ C := hm y (List.mem_cons_self _ _)
    cases t with
    | nil =>
      simp only [List.getLast?_singleton, Option.some.injEq] at hlast
      exact hlast ▸ Relation.ReflTransGen.single ⟨hsy, hs, hy⟩
    | cons z t2 =>
      rw [List.getLast?_cons_cons] at hlast
      exact Relation.ReflTransGen.head ⟨hsy, hs, hy⟩
        (ih hy hyt (fun u hu => hm u (List.mem_cons_of_mem _ hu)) hlast)

theorem groupRun_post {d : α → α → Option ℚ} {shapes : List α}
    {v : Finset ℕ} {gs : List (List ℕ)} {log : List Query}
    (h : groupRun d shapes = .ok (v, gs, log)) :
    GroupPost d shapes 0 ∅ [] [] v gs log :=
  (groupLoop_spec d shapes 0 ∅ [] [] (by omega) (by simp)).2 v gs log h

theorem groupRun_error_post {d : α → α → Option ℚ} {shapes : List α} {e : PyErr}
    (h : groupRun d shapes = .error e) : ErrPost d shapes e :=
  (groupLoop_spec d shapes 0 ∅ [] [] (by omega) (by simp)).1 e h

theorem idx_ok_run {d : α → α → Option ℚ} {shapes : List α} {gs : List (List ℕ)}
    (h : group_touching_shapes_idx d shapes = .ok gs) :
    ∃ v log, groupRun d shapes = .ok (v, gs, log) := by
  unfold group_touching_shapes_idx at h
  cases hr : groupRun d shapes with
  | error e =>
    rw [hr] at h
    simp [Except.map] at h
  | ok r =>
    obtain ⟨v, gs2, log⟩ := r
    rw [hr] at h
    simp only [Except.map, Except.ok.injEq] at h
    exact ⟨v, log, by rw [h]⟩

/-- The facts about a successful full run used by the claim proofs. -/
theorem run_facts {d : α → α → Option ℚ} {shapes : List α}
    {v : Finset ℕ} {gs : List (List ℕ)} {log : List Query}
    (h : groupRun d shapes = .ok (v, gs, log)) :
    (∀ x, x ∈ v ↔ ∃ g ∈ gs, x ∈ g) ∧
    (∀ j, j < shapes.length → j ∈ v) ∧
    (∀ g ∈ gs, ∃ s δ, g = s :: δ ∧ s < shapes.length ∧ g.Nodup ∧
      (∀ x ∈ g, x < shapes.length ∧ s ≤ x) ∧
      (∀ x ∈ δ, ∃ l, l ≠ [] ∧ (∀ y ∈ l, y ∈ δ) ∧
        List.Chain (stepIdx d shapes) s l ∧ l.getLast? = some x)) ∧
    List.Pairwise (fun g1 g2 => g1.headI < g2.headI) gs ∧
    List.Pairwise (fun g1 g2 => ∀ x ∈ g1, x ∉ g2) gs ∧
    List.Pairwise (fun g1 g2 => ∀ x ∈ g1, ∀ y ∈ g2,
      ∃ c : ℚ, c ≠ 0 ∧ dIdx d shapes x y = some c) gs ∧
    (∀ q ∈ log, q.src ∈ q.seen ∧ q.tgt ∉ q.seen ∧ q.src < shapes.length ∧
      q.tgt < shapes.length) ∧
    (log.map fun q => (q.src, q.tgt)).Nodup := by
  obtain ⟨ngs, qs, h1, h2, h3, h4, h5, h6, h7, h8, h9, h10, h11⟩ := groupRun_post h
  simp only [List.nil_append] at h1 h2
  subst h1
  subst h2
  have hmem : ∀ x, x ∈ v ↔ ∃ g ∈ gs, x ∈ g := by
    intro x
    rw [h5 x]
    simp
  have hglt : ∀ g ∈ gs, ∀ x ∈ g, x < shapes.length := by
    intro g hg x hx
    obtain ⟨s, δ, _, _, _, _, _, hs6, _⟩ := h6 g hg
    exact (hs6 x hx).2.1
  refine ⟨hmem, h3, ?_, h7, h8, h9, ?_, h11⟩
  · intro g hg
    obtain ⟨s, δ, hs1, hs2, hs3, hs4, hs5, hs6, hs7⟩ := h6 g hg
    exact ⟨s, δ, hs1, hs4, hs5, fun x hx => ⟨(hs6 x hx).2.1, (hs6 x hx).2.2⟩, hs7⟩
  · intro q hq
    obtain ⟨a1, a2, a3, a4, a5⟩ := h10 q hq
    have hsrclt : q.src < shapes.length := by
      obtain ⟨g, hg, hxg⟩ := (hmem q.src).mp a1
      exact hglt g hg q.src hxg
    exact ⟨a3, a4, hsrclt, a5⟩

/-- C1: on every input on which the distance oracle never fails (i.e. the
run succeeds), `group_touching_shapes` returns clusters of input positions
that are each non-empty and duplicate-free, pairwise disjoint, and whose
union is exactly the set of all input positions; hence every input position
(duplicate values counted separately by position) occurs in exactly one
returned cluster. -/
theorem c1_partition {α : Type} (d : α → α → Option ℚ) (shapes : List α)
    (gs : List (List ℕ)) (h : group_touching_shapes_idx d shapes = .ok gs) :
    (∀ g ∈ gs, g ≠ []) ∧ (∀ g ∈ gs, g.Nodup) ∧
    List.Pairwise (fun g1 g2 => ∀ x ∈ g1, x ∉ g2) gs ∧
    (∀ x, (∃ g ∈ gs, x ∈ g) ↔ x < shapes.length) := by
  obtain ⟨v, log, hrun⟩ := idx_ok_run h
  obtain ⟨hmem, hall, hgroups, _, hdisj, _, _, _⟩ := run_facts hrun
  refine ⟨?_, ?_, hdisj, ?_⟩
  · intro g hg
    obtain ⟨s, δ, hs1, _⟩ := hgroups g hg
    rw [hs1]
    simp
  · intro g hg
    obtain ⟨_, _, _, _, hnd, _⟩ := hgroups g hg
    exact hnd
  · intro x
    constructor
    · rintro ⟨g, hg, hxg⟩
      obtain ⟨_, _, _, _, _, hmem2, _⟩ := hgroups g hg
      exact (hmem2 x hxg).1
    · intro hx
      exact (hmem x).mp (hall x hx)

/-- Witness for C1 at Scenario 3. -/
theorem c1_partition_witness :
    (∀ g ∈ [[0, 1, 2]], g ≠ ([] : List ℕ)) ∧
    (∀ g ∈ [[0, 1, 2]], List.Nodup g) ∧
    List.Pairwise (fun g1 g2 => ∀ x ∈ g1, x ∉ g2) [[0, 1, 2]] ∧
    (∀ x, (∃ g ∈ [[0, 1, 2]], x ∈ g) ↔ x < ([0, 1, 2] : List ℕ).length) :=
  c1_partition dChainScen [0, 1, 2] [[0, 1, 2]]
    (by simp [group_touching_shapes_idx, groupRun, groupLoop, dfsLoop,
      are_shapes_touching, dChainScen, Except.map])

/-- C5: `are_shapes_touching` answers `true` exactly when the oracle
distance is `0` — no tolerance: any strictly positive distance, however
small, yields `false`. -/
theorem c5_exact_zero {α : Type} (d : α → α → Option ℚ) (a b : α) (q : ℚ)
    (hq : d a b = some q) :
    (are_shapes_touching d a b = .ok true ↔ q = 0) ∧
    (0 < q → are_shapes_touching d a b = .ok false) := by
  unfold are_shapes_touching
  rw [hq]
  constructor
  · constructor
    · intro h
      simpa using h
    · intro h
      simp [h]
  · intro h
    simp [ne_of_gt h]

/-- Witness for C5 at a touching pair and at a tiny positive distance. -/
theorem c5_exact_zero_witness :
    ((are_shapes_touching (fun _ _ : ℕ => some (1 / 1000000)) 0 1 = .ok true ↔
      (1 / 1000000 : ℚ) = 0) ∧
     (0 < (1 / 1000000 : ℚ) →
      are_shapes_touching (fun _ _ : ℕ => some (1 / 1000000)) 0 1 = .ok false)) ∧
    (are_shapes_touching (fun _ _ : ℕ => some 0) 0 1 = .ok true ↔ (0 : ℚ) = 0) :=
  ⟨c5_exact_zero (fun _ _ => some (1 / 1000000)) 0 1 (1 / 1000000) rfl,
   (c5_exact_zero (fun _ _ => some 0) 0 1 0 rfl).1⟩

/-- C6: for a fixed (deterministic) oracle and input order the result is
unique; clusters are ordered by their seed (the first position of each
cluster is its least position, and these seeds strictly increase along the
output); within a cluster the members are listed in discovery order with the
seed first (the list order of the embedding is the discovery order). -/
theorem c6_deterministic {α : Type} (d : α → α → Option ℚ) (shapes : List α)
    (gs : List (List ℕ)) (h : group_touching_shapes_idx d shapes = .ok gs) :
    (∀ gs2, group_touching_shapes_idx d shapes = .ok gs2 → gs2 = gs) ∧
    (∀ g ∈ gs, g ≠ [] ∧ ∀ x ∈ g, g.headI ≤ x) ∧
    List.Pairwise (fun g1 g2 => g1.headI < g2.headI) gs := by
  obtain ⟨v, log, hrun⟩ := idx_ok_run h
  obtain ⟨_, _, hgroups, hheads, _, _, _, _⟩ := run_facts hrun
  refine ⟨?_, ?_, hheads⟩
  · intro gs2 h2
    rw [h] at h2
    exact (Except.ok.inj h2).symm
  · intro g hg
    obtain ⟨s, δ, hs1, _, _, hs4, _⟩ := hgroups g hg
    have hhead : g.headI = s := by
      rw [hs1]
      rfl
    refine ⟨by rw [hs1]; simp, ?_⟩
    intro x hx
    rw [hhead]
    exact (hs4 x hx).2

/-- Witness for C6 at Scenario 3. -/
theorem c6_deterministic_witness :
    (∀ gs2, group_touching_shapes_idx dChainScen [0, 1, 2] = .ok gs2 → gs2 = [[0, 1, 2]]) ∧
    (∀ g ∈ [[0, 1, 2]], g ≠ [] ∧ ∀ x ∈ g, g.headI ≤ x) ∧
    List.Pairwise (fun g1 g2 => g1.headI < g2.headI) [[0, 1, 2]] :=
  c6_deterministic dChainScen [0, 1, 2] [[0, 1, 2]]
    (by simp [group_touching_shapes_idx, groupRun, groupLoop, dfsLoop,
      are_shapes_touching, dChainScen, Except.map])

/-- C8: the clustering never issues a self-comparison: every query in the
log has its source position visited and its target position unvisited at the
moment of the query, so the two positions are always distinct. -/
theorem c8_no_self_query {α : Type} (d : α → α → Option ℚ) (shapes : List α)
    (v : Finset ℕ) (gs : List (List ℕ)) (log : List Query)
    (h : groupRun d shapes = .ok (v, gs, log)) :
    ∀ q ∈ log, q.src ≠ q.tgt ∧ q.src ∈ q.seen ∧ q.tgt ∉ q.seen := by
  obtain ⟨_, _, _, _, _, _, hq, _⟩ := run_facts h
  intro q hqm
  obtain ⟨a1, a2, _, _⟩ := hq q hqm
  exact ⟨fun he => a2 (he ▸ a1), a1, a2⟩

/-- C10: within one run every ordered pair of positions is queried at most
once, each query's target is unvisited at the moment of the query, and the
oracle is invoked at most `n * (n - 1)` times. -/
theorem c10_query_bound {α : Type} (d : α → α → Option ℚ) (shapes : List α)
    (v : Finset ℕ) (gs : List (List ℕ)) (log : List Query)
    (h : groupRun d shapes = .ok (v, gs, log)) :
    (log.map fun q => (q.src, q.tgt)).Nodup ∧
    (∀ q ∈ log, q.tgt ∉ q.seen ∧ q.src < shapes.length ∧ q.tgt < shapes.length) ∧
    log.length ≤ shapes.length * (shapes.length - 1) := by
  obtain ⟨_, _, _, _, _, _, hq, hqnd⟩ := run_facts h
  refine ⟨hqnd, fun q hqm => ⟨(hq q hqm).2.1, (hq q hqm).2.2.1, (hq q hqm).2.2.2⟩, ?_⟩
  have hsub : (log.map fun q => (q.src, q.tgt)).toFinset ⊆
      (Finset.range shapes.length).offDiag := by
    intro p hp
    rw [List.mem_toFinset] at hp
    obtain ⟨q, hqm, rfl⟩ := List.mem_map.mp hp
    obtain ⟨a1, a2, a3, a4⟩ := hq q hqm
    refine Finset.mem_offDiag.mpr ⟨Finset.mem_range.mpr a3, Finset.mem_range.mpr a4, ?_⟩
    intro he
    have he2 : q.src = q.tgt := he
    exact a2 (he2 ▸ a1)
  have hcard : (log.map fun q => (q.src, q.tgt)).length ≤
      (Finset.range shapes.length).offDiag.card := by
    rw [← List.toFinset_card_of_nodup hqnd]
    exact Finset.card_le_card hsub
  rw [Finset.offDiag_card, Finset.card_range] at hcard
  rw [List.length_map] at hcard
  have hmul : shapes.length * (shapes.length - 1) =
      shapes.length * shapes.length - shapes.length := by
    rw [← Nat.pred_eq_sub_one, Nat.mul_pred]
  rw [hmul]
  exact hcard

/-- C9: on inputs of length 0 or 1 the oracle is never invoked (the query
log is empty), the results are `[]` and `[[shapes[0]]]`, and no failure can
occur, for every oracle `d`. -/
theorem c9_small_inputs {α : Type} :
    (∀ d : α → α → Option ℚ, groupRun d ([] : List α) = .ok (∅, [], []) ∧
      group_touching_shapes d ([] : List α) = .ok []) ∧
    (∀ (d : α → α → Option ℚ) (s : α), groupRun d [s] = .ok ({0}, [[0]], []) ∧
      group_touching_shapes d [s] = .ok [[s]]) := by
  refine ⟨fun d => ⟨?_, ?_⟩, fun d s => ⟨?_, ?_⟩⟩
  · simp [groupRun, groupLoop]
  · simp [group_touching_shapes, group_touching_shapes_idx, groupRun, groupLoop, Except.map]
  · simp [groupRun, groupLoop, dfsLoop]
  · simp [group_touching_shapes, group_touching_shapes_idx, groupRun, groupLoop, dfsLoop,
      Except.map]

/-- Witness for C8 at Scenario 3: the first issued query compares distinct
positions. -/
theorem c8_no_self_query_witness :
    (⟨0, 1, {0}⟩ : Query).src ≠ (⟨0, 1, {0}⟩ : Query).tgt ∧
    (⟨0, 1, {0}⟩ : Query).src ∈ (⟨0, 1, {0}⟩ : Query).seen ∧
    (⟨0, 1, {0}⟩ : Query).tgt ∉ (⟨0, 1, {0}⟩ : Query).seen :=
  c8_no_self_query dChainScen [0, 1, 2] {2, 1, 0} [[0, 1, 2]]
    [⟨0, 1, {0}⟩, ⟨1, 2, {1, 0}⟩]
    (by simp [groupRun, groupLoop, dfsLoop, are_shapes_touching, dChainScen])
    ⟨0, 1, {0}⟩ (by simp)

/-- Witness for C10 at Scenario 4: three queries on three shapes, within the
bound `3 * 2`. -/
theorem c10_query_bound_witness :
    (([(⟨0, 1, {0}⟩ : Query), ⟨0, 2, {0}⟩, ⟨1, 2, {1, 0}⟩].map
      fun q => (q.src, q.tgt)).Nodup ∧
    (∀ q ∈ [(⟨0, 1, {0}⟩ : Query), ⟨0, 2, {0}⟩, ⟨1, 2, {1, 0}⟩],
      q.tgt ∉ q.seen ∧ q.src < ([0, 1, 2] : List ℕ).length ∧
      q.tgt < ([0, 1, 2] : List ℕ).length) ∧
    ([(⟨0, 1, {0}⟩ : Query), ⟨0, 2, {0}⟩, ⟨1, 2, {1, 0}⟩].length ≤
      ([0, 1, 2] : List ℕ).length * (([0, 1, 2] : List ℕ).length - 1))) :=
  c10_query_bound dApartScen [0, 1, 2] {2, 1, 0} [[0], [1], [2]]
    [⟨0, 1, {0}⟩, ⟨0, 2, {0}⟩, ⟨1, 2, {1, 0}⟩]
    (by simp [groupRun, groupLoop, dfsLoop, are_shapes_touching, dApartScen])

/-- C2: inside every returned cluster any two members are connected by a
touching chain that stays inside the cluster (the oracle is a geometric
distance, hence symmetric). -/
theorem c2_chain_soundness {α : Type} (d : α → α → Option ℚ) (shapes : List α)
    (gs : List (List ℕ)) (hsym : ∀ a b, d a b = d b a)
    (h : group_touching_shapes_idx d shapes = .ok gs) :
    ∀ g ∈ gs, ∀ a ∈ g, ∀ b ∈ g, chainIn d shapes g a b := by
  obtain ⟨v, log, hrun⟩ := idx_ok_run h
  obtain ⟨_, _, hgroups, _, _, _, _, _⟩ := run_facts hrun
  intro g hg a ha b hb
  obtain ⟨s, δ, hs1, _, _, _, hchains⟩ := hgroups g hg
  have hsg : s ∈ g := by
    rw [hs1]
    exact List.mem_cons_self _ _
  have hreach : ∀ x ∈ g, rtcIn d shapes g s x := by
    intro x hx
    rw [hs1] at hx
    rcases List.mem_cons.mp hx with rfl | hx2
    · exact Relation.ReflTransGen.refl
    · obtain ⟨l, hlne, hlm, hlc, hll⟩ := hchains x hx2
      refine rtcIn_of_chain hsg hlc ?_ hll
      intro y hy
      rw [hs1]
      exact List.mem_cons_of_mem _ (hlm y hy)
  exact chainIn_of_rtcIn ha ((rtcIn_symm hsym (hreach a ha)).trans (hreach b hb))

theorem dChainScen_symm : ∀ a b, dChainScen a b = dChainScen b a := by
  intro a b
  unfold dChainScen
  by_cases h1 : (a = 0 ∧ b = 1) ∨ (a = 1 ∧ b = 0) ∨ (a = 1 ∧ b = 2) ∨ (a = 2 ∧ b = 1)
  · rw [if_pos h1, if_pos (by tauto)]
  · rw [if_neg h1, if_neg (by tauto)]

/-- Witness for C2 at Scenario 3: the run returns the single cluster
`[[A, B, C]]` and A is chain-connected to C inside it even though they are
not directly touching. -/
theorem c2_chain_soundness_witness :
    group_touching_shapes_idx dChainScen [0, 1, 2] = .ok [[0, 1, 2]] ∧
    chainIn dChainScen [0, 1, 2] [0, 1, 2] 0 2 := by
  have h : group_touching_shapes_idx dChainScen [0, 1, 2] = .ok [[0, 1, 2]] := by
    simp [group_touching_shapes_idx, groupRun, groupLoop, dfsLoop,
      are_shapes_touching, dChainScen, Except.map]
  exact ⟨h, c2_chain_soundness dChainScen [0, 1, 2] [[0, 1, 2]] dChainScen_symm h
    [0, 1, 2] (by simp) 0 (by simp) 2 (by simp)⟩

/-- Two positions joined by a touching edge end up in a common cluster
(shared between the completeness and idempotence claims). -/
theorem cluster_of_step {α : Type} {d : α → α → Option ℚ} {shapes : List α}
    {gs : List (List ℕ)} (hsym : ∀ a b, d a b = d b a)
    (h : group_touching_shapes_idx d shapes = .ok gs)
    {x y : ℕ} (hxy : stepIdx d shapes x y) (_hne : x ≠ y) :
    ∃ g ∈ gs, x ∈ g ∧ y ∈ g := by
  obtain ⟨v, log, hrun⟩ := idx_ok_run h
  obtain ⟨hmem, hall, hgroups, _, _, hcross, _, _⟩ := run_facts hrun
  obtain ⟨hx, hy⟩ := stepIdx_lt hxy
  obtain ⟨gx, hgx, hxgx⟩ := (hmem x).mp (hall x hx)
  obtain ⟨gy, hgy, hygy⟩ := (hmem y).mp (hall y hy)
  by_cases hgeq : gx = gy
  · exact ⟨gx, hgx, hxgx, hgeq ▸ hygy⟩
  · have hsymR : Symmetric (fun g1 g2 : List ℕ => ∀ x ∈ g1, ∀ y ∈ g2,
        ∃ c : ℚ, c ≠ 0 ∧ dIdx d shapes x y = some c) := by
      intro g1 g2 h12 a ha b hb
      obtain ⟨c, hc, hcd⟩ := h12 b hb a ha
      exact ⟨c, hc, by rw [dIdx_symm shapes hsym]; exact hcd⟩
    have hR := (hcross.forall hsymR) hgx hgy hgeq x hxgx y hygy
    obtain ⟨c, hc, hcd⟩ := hR
    rw [hxy] at hcd
    exact absurd (Option.some.inj hcd) (Ne.symm hc)

/-- C3: no two shapes in different clusters are touching: whenever the
oracle reports distance 0 for two distinct positions, those positions lie in
a common returned cluster. -/
theorem c3_completeness {α : Type} (d : α → α → Option ℚ) (shapes : List α)
    (gs : List (List ℕ)) (hsym : ∀ a b, d a b = d b a)
    (h : group_touching_shapes_idx d shapes = .ok gs)
    {x y : ℕ} (hxy : stepIdx d shapes x y) (hne : x ≠ y) :
    ∃ g ∈ gs, x ∈ g ∧ y ∈ g :=
  cluster_of_step hsym h hxy hne

/-- Witness for C3: Scenario 4 (all pairwise distances positive) yields the
three singleton clusters, and on a touching two-shape input both positions
share one cluster. -/
theorem c3_completeness_witness :
    group_touching_shapes_idx dApartScen [0, 1, 2] = .ok [[0], [1], [2]] ∧
    ∃ g ∈ [[0, 1]], 0 ∈ g ∧ 1 ∈ g := by
  refine ⟨by simp [group_touching_shapes_idx, groupRun, groupLoop, dfsLoop,
    are_shapes_touching, dApartScen, Except.map], ?_⟩
  exact c3_completeness (fun _ _ : ℕ => some 0) [7, 8] [[0, 1]] (fun _ _ => rfl)
    (by simp [group_touching_shapes_idx, groupRun, groupLoop, dfsLoop,
      are_shapes_touching, Except.map])
    (by simp [stepIdx, dIdx]) (by omega)

/-- C4 counterexample: on an oracle that fails on the first comparison the
code fails with the generic built-in `RuntimeError` carrying the message
"Distance computation failed." — not with a dedicated
`DistanceComputationFailed` error kind — so the claim as stated is false. -/
theorem c4_counterexample :
    group_touching_shapes dFailScen [5, 6] = .error (.runtimeError distanceFailedMsg) ∧
    group_touching_shapes dFailScen [5, 6] ≠ .error .distanceComputationFailed ∧
    ∀ gs, group_touching_shapes dFailScen [5, 6] ≠ .ok gs := by
  have h : group_touching_shapes dFailScen [5, 6] =
      .error (.runtimeError distanceFailedMsg) := by
    simp [group_touching_shapes, group_touching_shapes_idx, groupRun, groupLoop, dfsLoop,
      are_shapes_touching, dFailScen, Except.map]
  refine ⟨h, ?_, ?_⟩
  · rw [h]
    simp [distanceFailedMsg]
  · intro gs
    rw [h]
    simp

/-- C4 (amended): if a queried pair makes the oracle fail, the whole
clustering aborts with the uncaught generic
`RuntimeError("Distance computation failed.")` and no partial partition is
returned (an error result carries no clusters); conversely, when the oracle
never fails the operation returns a partition. -/
theorem c4_failure_propagation {α : Type} (d : α → α → Option ℚ) (shapes : List α) :
    (∀ e, group_touching_shapes d shapes = .error e →
      e = .runtimeError distanceFailedMsg ∧
      ∃ x y, x < shapes.length ∧ y < shapes.length ∧ dIdx d shapes x y = none) ∧
    ((∀ a b, d a b ≠ none) → ∃ gs, group_touching_shapes d shapes = .ok gs) := by
  constructor
  · intro e he
    unfold group_touching_shapes group_touching_shapes_idx at he
    cases hr : groupRun d shapes with
    | error e2 =>
      rw [hr] at he
      simp only [Except.map, Except.error.injEq] at he
      exact he ▸ groupRun_error_post hr
    | ok r =>
      rw [hr] at he
      simp [Except.map] at he
  · intro htot
    unfold group_touching_shapes group_touching_shapes_idx
    cases hr : groupRun d shapes with
    | error e2 =>
      obtain ⟨_, x, y, hx, hy, hnone⟩ := groupRun_error_post hr
      unfold dIdx at hnone
      rw [List.getElem?_eq_getElem hx, List.getElem?_eq_getElem hy] at hnone
      exact absurd hnone (htot _ _)
    | ok r =>
      exact ⟨_, rfl⟩

/-- Witness for C4 (amended): the failing branch at Scenario 5 and the
succeeding branch at Scenario 4. -/
theorem c4_failure_propagation_witness :
    ((.runtimeError distanceFailedMsg : PyErr) = .runtimeError distanceFailedMsg ∧
      ∃ x y, x < ([5, 6] : List ℕ).length ∧ y < ([5, 6] : List ℕ).length ∧
        dIdx dFailScen [5, 6] x y = none) ∧
    (∃ gs, group_touching_shapes dApartScen [0, 1, 2] = .ok gs) := by
  constructor
  · exact (c4_failure_propagation dFailScen [5, 6]).1 (.runtimeError distanceFailedMsg)
      (by simp [group_touching_shapes, group_touching_shapes_idx, groupRun, groupLoop,
        dfsLoop, are_shapes_touching, dFailScen, Except.map])
  · exact (c4_failure_propagation dApartScen [0, 1, 2]).2 (by intro a b; simp [dApartScen])

/-- Any two members of one returned cluster are connected by touching moves
inside the cluster. -/
theorem cluster_rtc {d : α → α → Option ℚ} {shapes : List α} {gs : List (List ℕ)}
    (hsym : ∀ a b, d a b = d b a)
    (h : group_touching_shapes_idx d shapes = .ok gs)
    {g : List ℕ} (hg : g ∈ gs) {a b : ℕ} (ha : a ∈ g) (hb : b ∈ g) :
    rtcIn d shapes g a b := by
  obtain ⟨v, log, hrun⟩ := idx_ok_run h
  obtain ⟨_, _, hgroups, _, _, _, _, _⟩ := run_facts hrun
  obtain ⟨s, δ, hs1, _, _, _, hchains⟩ := hgroups g hg
  have hsg : s ∈ g := by
    rw [hs1]
    exact List.mem_cons_self _ _
  have hreach : ∀ x ∈ g, rtcIn d shapes g s x := by
    intro x hx
    rw [hs1] at hx
    rcases List.mem_cons.mp hx with rfl | hx2
    · exact Relation.ReflTransGen.refl
    · obtain ⟨l, hlne, hlm, hlc, hll⟩ := hchains x hx2
      refine rtcIn_of_chain hsg hlc ?_ hll
      intro y hy
      rw [hs1]
      exact List.mem_cons_of_mem _ (hlm y hy)
  exact (rtcIn_symm hsym (hreach a ha)).trans (hreach b hb)

/-- A position lies in at most one returned cluster. -/
theorem cluster_unique {d : α → α → Option ℚ} {shapes : List α} {gs : List (List ℕ)}
    (h : group_touching_shapes_idx d shapes = .ok gs)
    {g1 g2 : List ℕ} {x : ℕ} (hg1 : g1 ∈ gs) (hg2 : g2 ∈ gs)
    (hx1 : x ∈ g1) (hx2 : x ∈ g2) : g1 = g2 := by
  obtain ⟨v, log, hrun⟩ := idx_ok_run h
  obtain ⟨_, _, _, _, hdisj, _, _, _⟩ := run_facts hrun
  by_contra hne
  have hsym2 : Symmetric (fun a b : List ℕ =>
      (∀ y ∈ a, y ∉ b) ∨ (∀ y ∈ b, y ∉ a)) := by
    intro a b hab
    tauto
  have hforall := (hdisj.imp fun hr => Or.inl hr).forall hsym2 hg1 hg2 hne
  rcases hforall with h1 | h1
  · exact h1 x hx1 hx2
  · exact h1 x hx2 hx1

/-- A returned cluster is exactly the touching-connectivity class of any of
its members, restricted to the input positions. -/
theorem cluster_conn_mem {d : α → α → Option ℚ} {shapes : List α} {gs : List (List ℕ)}
    (hsym : ∀ a b, d a b = d b a)
    (h : group_touching_shapes_idx d shapes = .ok gs)
    {g : List ℕ} (hg : g ∈ gs) {x : ℕ} (hx : x ∈ g) (y : ℕ) :
    y ∈ g ↔ y < shapes.length ∧ Relation.ReflTransGen (stepIdx d shapes) x y := by
  obtain ⟨v, log, hrun⟩ := idx_ok_run h
  obtain ⟨hmem, hall, hgroups, _, _, _, _, _⟩ := run_facts hrun
  have hglt : ∀ g2 ∈ gs, ∀ z ∈ g2, z < shapes.length := by
    intro g2 hg2 z hz
    obtain ⟨_, _, _, _, _, hmem2, _⟩ := hgroups g2 hg2
    exact (hmem2 z hz).1
  constructor
  · intro hy
    exact ⟨hglt g hg y hy,
      (cluster_rtc hsym h hg hx hy).mono fun a b hr => hr.1⟩
  · rintro ⟨hy, hconn⟩
    have key : ∀ z, Relation.ReflTransGen (stepIdx d shapes) x z →
        z < shapes.length → z ∈ g := by
      intro z hz
      induction hz with
      | refl => exact fun _ => hx
      | tail h1 h2 ih =>
        rename_i b c
        intro hc
        have hb : b < shapes.length := (stepIdx_lt h2).1
        have hbg : b ∈ g := ih hb
        by_cases hbc : b = c
        · exact hbc ▸ hbg
        · obtain ⟨g2, hg2, hbg2, hcg2⟩ := cluster_of_step hsym h h2 hbc
          exact (cluster_unique h hg2 hg hbg2 hbg) ▸ hcg2
    exact key y hconn hy

set_option maxRecDepth 4000 in
theorem getElem?_filterMap_getElem (shapes : List α) :
    ∀ (J : List ℕ), (∀ x ∈ J, x < shapes.length) → ∀ p : ℕ,
      (J.filterMap fun x => shapes[x]?)[p]? = (J[p]?).bind fun x => shapes[x]? := by
  intro J
  induction J with
  | nil =>
    intro _ p
    simp
  | cons a t ih =>
    intro hlt p
    have ha : a < shapes.length := hlt a (List.mem_cons_self _ _)
    rw [List.filterMap_cons_some (List.getElem?_eq_getElem ha)]
    cases p with
    | zero =>
      simp only [List.getElem?_cons_zero, Option.some_bind]
      exact (List.getElem?_eq_getElem ha).symm
    | succ p2 =>
      rw [List.getElem?_cons_succ, List.getElem?_cons_succ]
      exact ih (fun x hx => hlt x (List.mem_cons_of_mem _ hx)) p2

theorem length_filterMap_getElem (shapes : List α) :
    ∀ (J : List ℕ), (∀ x ∈ J, x < shapes.length) →
      (J.filterMap fun x => shapes[x]?).length = J.length := by
  intro J
  induction J with
  | nil =>
    intro _
    rfl
  | cons a t ih =>
    intro hlt
    rw [List.filterMap_cons_some
      (List.getElem?_eq_getElem (hlt a (List.mem_cons_self _ _)))]
    simp [ih fun x hx => hlt x (List.mem_cons_of_mem _ hx)]

theorem flatten_filterMap {β : Type} (f : ℕ → Option β) :
    ∀ gs : List (List ℕ), (gs.map fun g => g.filterMap f).flatten = gs.flatten.filterMap f := by
  intro gs
  induction gs with
  | nil => rfl
  | cons g t ih =>
    rw [List.map_cons, List.flatten_cons, List.flatten_cons, List.filterMap_append, ih]

theorem value_ok_run {d : α → α → Option ℚ} {shapes : List α} {vgs : List (List α)}
    (h : group_touching_shapes d shapes = .ok vgs) :
    ∃ gs, group_touching_shapes_idx d shapes = .ok gs ∧
      vgs = gs.map fun g => g.filterMap fun x => shapes[x]? := by
  unfold group_touching_shapes at h
  cases hr : group_touching_shapes_idx d shapes with
  | error e =>
    rw [hr] at h
    simp [Except.map] at h
  | ok gs =>
    rw [hr] at h
    simp only [Except.map, Except.ok.injEq] at h
    exact ⟨gs, rfl, h.symm⟩

/-- C7: re-clustering the concatenation of the clusters of a successful run
(with the same symmetric oracle) yields a partition with the same multiset of
cluster sizes. -/
theorem c7_idempotent (d : α → α → Option ℚ) (shapes : List α)
    (vgs vgs2 : List (List α)) (hsym : ∀ a b, d a b = d b a)
    (h1 : group_touching_shapes d shapes = .ok vgs)
    (h2 : group_touching_shapes d vgs.flatten = .ok vgs2) :
    (vgs2.map List.length).Perm (vgs.map List.length) := by
  obtain ⟨gs, hidx1, hvgs⟩ := value_ok_run h1
  obtain ⟨v1, log1, hrun1⟩ := idx_ok_run hidx1
  obtain ⟨hmem1, hall1, hgroups1, _, hdisj1, _, _, _⟩ := run_facts hrun1
  have hglt1 : ∀ g ∈ gs, ∀ z ∈ g, z < shapes.length := by
    intro g hg z hz
    obtain ⟨_, _, _, _, _, hm, _⟩ := hgroups1 g hg
    exact (hm z hz).1
  have hgne1 : ∀ g ∈ gs, g ≠ [] := by
    intro g hg
    obtain ⟨s, dd, hs1, _⟩ := hgroups1 g hg
    rw [hs1]
    simp
  have hgnd1 : ∀ g ∈ gs, g.Nodup := by
    intro g hg
    obtain ⟨_, _, _, _, hnd, _⟩ := hgroups1 g hg
    exact hnd
  have hJmem : ∀ x, x ∈ gs.flatten ↔ x < shapes.length := by
    intro x
    rw [List.mem_flatten]
    constructor
    · rintro ⟨g, hg, hx⟩
      exact hglt1 g hg x hx
    · intro hx
      exact (hmem1 x).mp (hall1 x hx)
  have hJnd : gs.flatten.Nodup := by
    rw [List.nodup_flatten]
    exact ⟨hgnd1, hdisj1.imp fun hr => fun a ha hab => hr a ha hab⟩
  have hJlen : gs.flatten.length = shapes.length := by
    rw [← List.toFinset_card_of_nodup hJnd]
    have htf : gs.flatten.toFinset = Finset.range shapes.length := by
      ext z
      rw [List.mem_toFinset, hJmem, Finset.mem_range]
    rw [htf, Finset.card_range]
  have hJlt : ∀ x ∈ gs.flatten, x < shapes.length := fun x hx => (hJmem x).mp hx
  have hshapes2 : vgs.flatten = gs.flatten.filterMap fun x => shapes[x]? := by
    rw [hvgs]
    exact flatten_filterMap _ gs
  have hlen2 : vgs.flatten.length = shapes.length := by
    rw [hshapes2, length_filterMap_getElem shapes gs.flatten hJlt, hJlen]
  have hget2 : ∀ p : ℕ, vgs.flatten[p]? = (gs.flatten[p]?).bind fun x => shapes[x]? := by
    intro p
    rw [hshapes2]
    exact getElem?_filterMap_getElem shapes gs.flatten hJlt p
  set σ : ℕ → ℕ := fun p => gs.flatten.getD p 0 with hσdef
  have hσget : ∀ p, p < shapes.length → gs.flatten[p]? = some (σ p) ∧ σ p < shapes.length := by
    intro p hp
    have hp2 : p < gs.flatten.length := by omega
    constructor
    · rw [List.getElem?_eq_getElem hp2, hσdef]
      simp only
      rw [List.getD_eq_getElem _ _ hp2]
    · have hmem : σ p ∈ gs.flatten := by
        rw [hσdef]
        simp only
        rw [List.getD_eq_getElem _ _ hp2]
        exact List.getElem_mem hp2
      exact (hJmem _).mp hmem
  have hσinj : ∀ p q, p < shapes.length → q < shapes.length → σ p = σ q → p = q := by
    intro p q hp hq he
    have hp2 : p < gs.flatten.length := by omega
    have hq2 : q < gs.flatten.length := by omega
    rw [hσdef] at he
    simp only at he
    rw [List.getD_eq_getElem _ _ hp2, List.getD_eq_getElem _ _ hq2] at he
    exact (hJnd.getElem_inj_iff).mp he
  have hidxOf : ∀ z, z < shapes.length →
      gs.flatten.indexOf z < shapes.length ∧ σ (gs.flatten.indexOf z) = z := by
    intro z hz
    have hzJ : z ∈ gs.flatten := (hJmem z).mpr hz
    have hlt : gs.flatten.indexOf z < gs.flatten.length := List.indexOf_lt_length.mpr hzJ
    refine ⟨by omega, ?_⟩
    rw [hσdef]
    simp only
    rw [List.getD_eq_getElem _ _ hlt]
    exact List.getElem_indexOf hlt
  have hdtrans : ∀ p q, p < shapes.length → q < shapes.length →
      dIdx d vgs.flatten p q = dIdx d shapes (σ p) (σ q) := by
    intro p q hp hq
    unfold dIdx
    rw [hget2 p, hget2 q, (hσget p hp).1, (hσget q hq).1]
    rfl
  have hstep2lt : ∀ p q, stepIdx d vgs.flatten p q →
      p < shapes.length ∧ q < shapes.length := by
    intro p q hs
    have hlt := stepIdx_lt hs
    omega
  have hstrans : ∀ p q, p < shapes.length → q < shapes.length →
      (stepIdx d vgs.flatten p q ↔ stepIdx d shapes (σ p) (σ q)) := by
    intro p q hp hq
    unfold stepIdx
    rw [hdtrans p q hp hq]
  have hconn21 : ∀ p q, p < shapes.length →
      Relation.ReflTransGen (stepIdx d vgs.flatten) p q →
      q < shapes.length ∧ Relation.ReflTransGen (stepIdx d shapes) (σ p) (σ q) := by
    intro p q hp hconn
    induction hconn with
    | refl => exact ⟨hp, Relation.ReflTransGen.refl⟩
    | tail hh1 hh2 ih =>
      rename_i b c
      obtain ⟨hb, hih⟩ := ih
      have hc : c < shapes.length := (hstep2lt b c hh2).2
      exact ⟨hc, hih.tail ((hstrans b c hb hc).mp hh2)⟩
  have hconn12 : ∀ p z, p < shapes.length →
      Relation.ReflTransGen (stepIdx d shapes) (σ p) z → z < shapes.length →
      Relation.ReflTransGen (stepIdx d vgs.flatten) p (gs.flatten.indexOf z) := by
    intro p z hp hconn
    induction hconn with
    | refl =>
      intro _
      have h3 := hidxOf (σ p) (hσget p hp).2
      have h4 : gs.flatten.indexOf (σ p) = p := hσinj _ p h3.1 hp h3.2
      rw [h4]
    | tail hh1 hh2 ih =>
      rename_i b c
      intro hc
      have hb : b < shapes.length := (stepIdx_lt hh2).1
      have hbi := hidxOf b hb
      have hci := hidxOf c hc
      refine (ih hb).tail ?_
      rw [hstrans _ _ hbi.1 hci.1, hbi.2, hci.2]
      exact hh2
  obtain ⟨gs2, hidx2, hvgs2⟩ := value_ok_run h2
  obtain ⟨v2, log2, hrun2⟩ := idx_ok_run hidx2
  obtain ⟨hmem2, hall2, hgroups2, _, hdisj2, _, _, _⟩ := run_facts hrun2
  have hglt2 : ∀ g ∈ gs2, ∀ z ∈ g, z < shapes.length := by
    intro g hg z hz
    obtain ⟨_, _, _, _, _, hm, _⟩ := hgroups2 g hg
    have := (hm z hz).1
    omega
  have hgne2 : ∀ g ∈ gs2, g ≠ [] := by
    intro g hg
    obtain ⟨s, dd, hs1, _⟩ := hgroups2 g hg
    rw [hs1]
    simp
  have hgnd2 : ∀ g ∈ gs2, g.Nodup := by
    intro g hg
    obtain ⟨_, _, _, _, hnd, _⟩ := hgroups2 g hg
    exact hnd
  have hmatchF : ∀ g ∈ gs, ∀ g2 ∈ gs2, ∀ p, p ∈ g2 → p < shapes.length → σ p ∈ g →
      g.toFinset = g2.toFinset.image σ := by
    intro g hg g2 hg2 p hpg2 hp hσpg
    ext z
    rw [List.mem_toFinset, Finset.mem_image]
    rw [cluster_conn_mem hsym hidx1 hg hσpg z]
    constructor
    · rintro ⟨hz, hconn⟩
      have hzi := hidxOf z hz
      have hc2 : Relation.ReflTransGen (stepIdx d vgs.flatten) p (gs.flatten.indexOf z) :=
        hconn12 p z hp hconn hz
      have hidxmem : gs.flatten.indexOf z ∈ g2 := by
        rw [cluster_conn_mem hsym hidx2 hg2 hpg2 (gs.flatten.indexOf z)]
        exact ⟨by omega, hc2⟩
      exact ⟨gs.flatten.indexOf z, List.mem_toFinset.mpr hidxmem, hzi.2⟩
    · rintro ⟨q, hq, rfl⟩
      rw [List.mem_toFinset] at hq
      have hq2 := (cluster_conn_mem hsym hidx2 hg2 hpg2 q).mp hq
      have hqlt : q < shapes.length := by omega
      obtain ⟨_, hcq⟩ := hconn21 p q hp hq2.2
      exact ⟨(hσget q hqlt).2, hcq⟩
  have hL1L2 : ∀ S : Finset ℕ, S ∈ gs.map List.toFinset ↔
      S ∈ gs2.map fun g => g.toFinset.image σ := by
    intro S
    simp only [List.mem_map]
    constructor
    · rintro ⟨g, hg, rfl⟩
      obtain ⟨x, hx⟩ := List.exists_mem_of_ne_nil g (hgne1 g hg)
      have hxlt : x < shapes.length := hglt1 g hg x hx
      have hxi := hidxOf x hxlt
      have hpin : ∃ g2 ∈ gs2, gs.flatten.indexOf x ∈ g2 := by
        apply (hmem2 _).mp
        apply hall2
        omega
      obtain ⟨g2, hg2, hpg2⟩ := hpin
      refine ⟨g2, hg2, ?_⟩
      rw [hmatchF g hg g2 hg2 _ hpg2 hxi.1 (by rw [hxi.2]; exact hx)]
    · rintro ⟨g2, hg2, rfl⟩
      obtain ⟨q, hq⟩ := List.exists_mem_of_ne_nil g2 (hgne2 g2 hg2)
      have hqlt : q < shapes.length := hglt2 g2 hg2 q hq
      have hσq : σ q < shapes.length := (hσget q hqlt).2
      obtain ⟨g, hg, hσqg⟩ := (hmem1 _).mp (hall1 _ hσq)
      exact ⟨g, hg, hmatchF g hg g2 hg2 q hq hqlt hσqg⟩
  have hL1nd : (gs.map List.toFinset).Nodup := by
    have hpw : List.Pairwise (fun a b : Finset ℕ => a ≠ b) (gs.map List.toFinset) := by
      refine List.pairwise_map.mpr ?_
      refine hdisj1.imp_of_mem ?_
      intro g1 g2 hg1 hg2 hr heq
      obtain ⟨x, hx⟩ := List.exists_mem_of_ne_nil g1 (hgne1 g1 hg1)
      have hx2 : x ∈ g2.toFinset := heq ▸ List.mem_toFinset.mpr hx
      exact hr x hx (List.mem_toFinset.mp hx2)
    exact hpw
  have hL2nd : (gs2.map fun g => g.toFinset.image σ).Nodup := by
    have hpw : List.Pairwise (fun a b : Finset ℕ => a ≠ b)
        (gs2.map fun g => g.toFinset.image σ) := by
      refine List.pairwise_map.mpr ?_
      refine hdisj2.imp_of_mem ?_
      intro g1 g2 hg1 hg2 hr heq
      obtain ⟨q, hq⟩ := List.exists_mem_of_ne_nil g1 (hgne2 g1 hg1)
      have hq1 : σ q ∈ g1.toFinset.image σ :=
        Finset.mem_image_of_mem σ (List.mem_toFinset.mpr hq)
      rw [heq] at hq1
      obtain ⟨q2, hq2, hq2e⟩ := Finset.mem_image.mp hq1
      rw [List.mem_toFinset] at hq2
      have : q2 = q := hσinj q2 q (hglt2 g2 hg2 q2 hq2) (hglt2 g1 hg1 q hq) hq2e
      exact hr q hq (this ▸ hq2)
    exact hpw
  have hperm : (gs.map List.toFinset).Perm (gs2.map fun g => g.toFinset.image σ) :=
    (List.perm_ext_iff_of_nodup hL1nd hL2nd).mpr hL1L2
  have hcardperm := hperm.map Finset.card
  have e1 : (gs.map List.toFinset).map Finset.card = gs.map List.length := by
    rw [List.map_map]
    apply List.map_congr_left
    intro g hg
    simp only [Function.comp_apply]
    exact List.toFinset_card_of_nodup (hgnd1 g hg)
  have e2 : (gs2.map fun g => g.toFinset.image σ).map Finset.card = gs2.map List.length := by
    rw [List.map_map]
    apply List.map_congr_left
    intro g hg
    simp only [Function.comp_apply]
    rw [Finset.card_image_of_injOn, List.toFinset_card_of_nodup (hgnd2 g hg)]
    intro a ha b hb he
    rw [Finset.mem_coe, List.mem_toFinset] at ha hb
    exact hσinj a b (hglt2 g hg a ha) (hglt2 g hg b hb) he
  have f1 : vgs.map List.length = gs.map List.length := by
    rw [hvgs, List.map_map]
    apply List.map_congr_left
    intro g hg
    simp only [Function.comp_apply]
    exact length_filterMap_getElem shapes g fun x hx => hglt1 g hg x hx
  have f2 : vgs2.map List.length = gs2.map List.length := by
    rw [hvgs2, List.map_map]
    apply List.map_congr_left
    intro g hg
    simp only [Function.comp_apply]
    refine length_filterMap_getElem vgs.flatten g fun x hx => ?_
    have := hglt2 g hg x hx
    omega
  rw [f1, f2]
  rw [e1, e2] at hcardperm
  exact hcardperm.symm

/-- Witness for C7 at Scenario 4: three singleton clusters, re-clustered with
the same sizes. -/
theorem c7_idempotent_witness :
    (([[0], [1], [2]] : List (List ℕ)).map List.length).Perm
      (([[0], [1], [2]] : List (List ℕ)).map List.length) :=
  c7_idempotent dApartScen [0, 1, 2] [[0], [1], [2]] [[0], [1], [2]]
    (fun _ _ => rfl)
    (by simp [group_touching_shapes, group_touching_shapes_idx, groupRun, groupLoop,
      dfsLoop, are_shapes_touching, dApartScen, Except.map])
    (by simp [group_touching_shapes, group_touching_shapes_idx, groupRun, groupLoop,
      dfsLoop, are_shapes_touching, dApartScen, Except.map])

end IfcGeom
